import Mathlib

/-!
# A shallow embedding of the `rlox` scanner

This file embeds the lexical scanner of the `rlox` repository
(`src/scanner.rs`, with the diagnostics reporter of `src/main.rs`) into
Lean 4 and proves properties of it.

Modelling conventions:

* Rust's `Vec<char>` field `chars` becomes `List Char`; `source.len()` (the
  UTF-8 *byte* length of the source string) becomes the `srcLen` field,
  computed by `utf8Len`.  The scanner indexes `chars` with positions that it
  compares against `srcLen`, exactly as the Rust code does.
* A Rust panic (out-of-bounds `Vec` index, string slice not on a char
  boundary or out of range, failing `expect`) is modelled by the
  `ScanRes.panic` outcome.  Loops are written with explicit fuel so that all
  definitions compute; `ScanRes.fuelOut` marks fuel exhaustion and every
  loop is invoked with fuel that exceeds the number of iterations it can
  perform (each iteration strictly advances the cursor, which is bounded by
  `srcLen`).
* The process-global diagnostics state of `mod lox` in `main.rs` (the
  `has_error` flag plus the messages printed by `report`) is threaded
  through the scan as the `errors` field: `lox::error(line, msg)` appends
  `(line, msg)`; the shared flag is set exactly when `errors ≠ []`.
* `value.parse::<f32>()` is modelled symbolically: the literal records the
  exact text handed to the parser, and `rustParsesF32` implements the
  grammar accepted by Rust's `f32::from_str` so that the `expect` panic on
  unparseable text is represented faithfully.  Floating-point rounding
  itself is outside the embedding.
-/

set_option maxHeartbeats 1000000

namespace RLox

/-- Lexical categories of tokens (`enum TokenType` in `scanner.rs`). -/
inductive TokenType where
  | LeftParen | RightParen | LeftBrace | RightBrace
  | Comma | Dot | Minus | Plus | Semicolon | Slash | Star
  | Bang | BangEqual | Equal | EqualEqual
  | Greater | GreaterEqual | Less | LessEqual
  | Identifier | TString | Number
  | And | Class | Else | False | Fun | For | If | Nil | Or
  | Print | Return | Super | This | True | Var | While
  | Eof
deriving DecidableEq, Repr

/-- Literal payloads (`enum LiteralType` in `scanner.rs`).  `NumberLiteral`
records the text passed to `parse::<f32>()` (see the module docstring). -/
inductive LiteralType where
  | Nil : LiteralType
  | StringLiteral : List Char → LiteralType
  | NumberLiteral : List Char → LiteralType
  | BooleanLiteral : Bool → LiteralType
deriving DecidableEq, Repr

/-- Rust `struct Token` in `scanner.rs`.  The lexeme is kept as a character list
(slices of the ASCII-or-panic byte slicing modelled by `byteSlice`). -/
structure Token where
  token_type : TokenType
  lexeme : List Char
  literal : LiteralType
  line : Nat
deriving DecidableEq, Repr

/-- UTF-8 byte length of a character list: Rust's `String::len` for the
string holding exactly these characters. -/
def utf8Len (cs : List Char) : Nat := (cs.map Char.utf8Size).sum

/-- Rust `struct Scanner` in `scanner.rs`, with the diagnostics of `mod lox` in
`main.rs` threaded through as `errors` (the shared `has_error` flag is set
exactly when `errors` is nonempty). -/
structure Scanner where
  chars : List Char
  srcLen : Nat
  start : Nat
  current : Nat
  line : Nat
  result : List Token
  errors : List (Nat × String)
deriving DecidableEq, Repr

/-- Rust `Scanner::new`. -/
def Scanner.new (input : List Char) : Scanner :=
  { chars := input, srcLen := utf8Len input, start := 0, current := 0,
    line := 1, result := [], errors := [] }

/-- Outcome of a scanner computation: a normal value, a Rust panic, or fuel
exhaustion (the latter is never produced under the fuel bounds used below). -/
inductive ScanRes where
  | ok : Scanner → ScanRes
  | panic : ScanRes
  | fuelOut : ScanRes
deriving DecidableEq, Repr

/-- Rust `Scanner::is_digit` (`match c { '0'..='9' => true, _ => false }`). -/
def isDigit (c : Char) : Bool := decide ('0' ≤ c ∧ c ≤ '9')

/-- Rust `Scanner::at_end`: `self.current >= self.source.len()` — note the
comparison of a character index against the *byte* length. -/
def atEnd (s : Scanner) : Bool := decide (s.srcLen ≤ s.current)

/-- Rust `lox::error` (via `lox::report`): record a diagnostic and thereby set the
shared error flag. -/
def loxError (s : Scanner) (line : Nat) (msg : String) : Scanner :=
  { s with errors := s.errors ++ [(line, msg)] }

/-- Decode the byte range `[a, b)` of the UTF-8 encoding of `cs`, dropping
`a` leading bytes: `none` when `a` is not a character boundary or runs past
the end (a Rust slice panic). -/
def dropBytes : List Char → Nat → Option (List Char)
  | cs, 0 => some cs
  | [], _ + 1 => none
  | c :: cs, n + 1 =>
    if c.utf8Size ≤ n + 1 then dropBytes cs (n + 1 - c.utf8Size) else none

/-- Take the first `n` bytes of the UTF-8 encoding of `cs` as characters:
`none` when `n` is not a character boundary or exceeds the length. -/
def takeBytes : List Char → Nat → Option (List Char)
  | _, 0 => some []
  | [], _ + 1 => none
  | c :: cs, n + 1 =>
    if c.utf8Size ≤ n + 1 then (takeBytes cs (n + 1 - c.utf8Size)).map (c :: ·)
    else none

/-- Rust string slicing `&source[a..b]` on the source string whose characters
are `cs`: byte indices, panicking (`none`) when `a > b`, when `b` exceeds the
byte length, or when either index is not a character boundary. -/
def byteSlice (cs : List Char) (a b : Nat) : Option (List Char) :=
  if a ≤ b then (dropBytes cs a).bind (fun suf => takeBytes suf (b - a))
  else none

/-- Rust `Scanner::advance`: read `chars[current]` (panicking when out of bounds)
and move the cursor one character forward. -/
def advance (s : Scanner) : Option (Char × Scanner) :=
  match s.chars[s.current]? with
  | none => none
  | some c => some (c, { s with current := s.current + 1 })

/-- Rust `Scanner::peek`: `'\0'` at end of input, otherwise `chars[current]`
(which panics when `current` is in `[chars.len, source.len)`). -/
def peek (s : Scanner) : Option Char :=
  if atEnd s then some (Char.ofNat 0) else s.chars[s.current]?

/-- Rust `Scanner::peek_next`: `'\0'` when `current + 1` reaches the byte length,
otherwise `chars[current + 1]`. -/
def peekNext (s : Scanner) : Option Char :=
  if s.srcLen ≤ s.current + 1 then some (Char.ofNat 0)
  else s.chars[s.current + 1]?

/-- Rust `Scanner::next_is`: conditional one-character lookahead that consumes the
character when it matches.  `at_end` is checked first (short-circuit `||`),
so the index is only read when the cursor is below the byte length. -/
def nextIs (s : Scanner) (c : Char) : Option (Bool × Scanner) :=
  if atEnd s then some (false, s)
  else
    match s.chars[s.current]? with
    | none => none
    | some ch =>
      if ch ≠ c then some (false, s)
      else some (true, { s with current := s.current + 1 })

/-- Rust `Scanner::append_token_literal`: slice the lexeme `source[start..current]`
(byte indices) and push the token, stamped with the current line. -/
def appendTokenLiteral (s : Scanner) (tt : TokenType) (lit : LiteralType) :
    Option Scanner :=
  match byteSlice s.chars s.start s.current with
  | none => none
  | some lex =>
    some { s with result := s.result ++ [⟨tt, lex, lit, s.line⟩] }

/-- Rust `Scanner::append_token`. -/
def appendToken (s : Scanner) (tt : TokenType) : Option Scanner :=
  appendTokenLiteral s tt LiteralType.Nil

/-- Propagate a possible panic from an `Option Scanner` computation. -/
def okOf : Option Scanner → ScanRes
  | none => .panic
  | some s => .ok s

/-- The loop of `Scanner::consume_string`:
`while peek() != '"' && !at_end() { if peek() == '\n' { line += 1 }; advance() }`.
When the cursor is at or past the byte length, `peek` yields `'\0' ≠ '"'`
and `!at_end()` fails, so the loop exits; otherwise `peek` reads
`chars[current]` (panicking out of bounds) and the body consumes it. -/
def stringLoop : Nat → Scanner → ScanRes
  | 0, _ => .fuelOut
  | fuel + 1, s =>
    if s.current < s.srcLen then
      match s.chars[s.current]? with
      | none => .panic
      | some c =>
        if c = '"' then .ok s
        else
          stringLoop fuel
            { s with line := if c = '\n' then s.line + 1 else s.line,
                     current := s.current + 1 }
    else .ok s

/-- Rust `Scanner::consume_string` after the opening quote has been consumed. -/
def consumeString (s : Scanner) : ScanRes :=
  match stringLoop (s.srcLen + 1) s with
  | .fuelOut => .fuelOut
  | .panic => .panic
  | .ok s1 =>
    if atEnd s1 then .ok (loxError s1 s1.line "Unterminated string.")
    else
      match advance s1 with
      | none => .panic
      | some (_, s2) =>
        match byteSlice s2.chars (s2.start + 1) (s2.current - 1) with
        | none => .panic
        | some value =>
          okOf (appendTokenLiteral s2 TokenType.TString
            (LiteralType.StringLiteral value))

/-- Rust `while is_digit(peek()) { advance() }` in `Scanner::consume_number`.
At or past the byte length `peek` yields `'\0'`, which is not a digit. -/
def numberLoop : Nat → Scanner → ScanRes
  | 0, _ => .fuelOut
  | fuel + 1, s =>
    if s.current < s.srcLen then
      match s.chars[s.current]? with
      | none => .panic
      | some c =>
        if isDigit c then numberLoop fuel { s with current := s.current + 1 }
        else .ok s
    else .ok s

/-- The grammar accepted by Rust's `f32::from_str` exponent part:
an optional sign followed by at least one digit. -/
def parsesExp (cs : List Char) : Bool :=
  let cs := match cs with
    | c :: rest => if c = '+' ∨ c = '-' then rest else c :: rest
    | [] => []
  !cs.isEmpty && cs.all isDigit

/-- The number part of the grammar accepted by Rust's `f32::from_str`:
`digits`, `digits '.' digits?`, or `'.' digits`, each optionally followed by
an exponent `('e' | 'E') sign? digits`. -/
def parsesMantissaExp (cs : List Char) : Bool :=
  let intPart := cs.takeWhile isDigit
  match cs.dropWhile isDigit with
  | [] => !intPart.isEmpty
  | '.' :: rest2 =>
    let frac := rest2.takeWhile isDigit
    (!intPart.isEmpty || !frac.isEmpty) &&
      (match rest2.dropWhile isDigit with
       | [] => true
       | e :: rest4 => (e = 'e' || e = 'E') && parsesExp rest4)
  | e :: rest2 => (e = 'e' || e = 'E') && !intPart.isEmpty && parsesExp rest2

/-- Whether `text.parse::<f32>()` succeeds in Rust: an optional sign followed
by `inf`, `infinity` or `nan` (case-insensitive) or by a number per
`parsesMantissaExp`. -/
def rustParsesF32 (cs : List Char) : Bool :=
  let body := match cs with
    | c :: rest => if c = '+' ∨ c = '-' then rest else c :: rest
    | [] => []
  let low := body.map Char.toLower
  low = "inf".toList || low = "infinity".toList || low = "nan".toList ||
    parsesMantissaExp body

/-- The tail of `Scanner::consume_number`: slice `source[start..current]`,
parse it as `f32` (panicking via `expect` when the text does not parse), and
emit the `Number` token. -/
def finishNumber (s : Scanner) : ScanRes :=
  match byteSlice s.chars s.start s.current with
  | none => .panic
  | some value =>
    if rustParsesF32 value then
      okOf (appendTokenLiteral s TokenType.Number
        (LiteralType.NumberLiteral value))
    else .panic

/-- Rust `Scanner::consume_number` after the leading digit has been consumed.
`peek() == '.'` is checked before `is_digit(peek_next())` (short-circuit
`&&`), and the fractional digits are consumed only when both hold. -/
def consumeNumber (s : Scanner) : ScanRes :=
  match numberLoop (s.srcLen + 1) s with
  | .fuelOut => .fuelOut
  | .panic => .panic
  | .ok s1 =>
    match peek s1 with
    | none => .panic
    | some c =>
      if c = '.' then
        match peekNext s1 with
        | none => .panic
        | some c2 =>
          if isDigit c2 then
            match advance s1 with
            | none => .panic
            | some (_, s2) =>
              match numberLoop (s2.srcLen + 1) s2 with
              | .fuelOut => .fuelOut
              | .panic => .panic
              | .ok s3 => finishNumber s3
          else finishNumber s1
      else finishNumber s1

/-- Specification helper (not part of the Rust code): the characters that
`consume_number` consumes beyond the leading digit run — a `'.'` and the
following digit run when the character after the first run is `'.'` and the
character after that is a digit, and nothing otherwise. -/
def fracExt (post : List Char) : List Char :=
  match post with
  | c :: rest =>
    if c = '.' then
      match rest with
      | c2 :: _ => if isDigit c2 then '.' :: rest.takeWhile isDigit else []
      | [] => []
    else []
  | [] => []

/-- The line-comment loop in `Scanner::scan_tokens`:
`while peek() != '\n' && !at_end() { advance() }`. -/
def commentLoop : Nat → Scanner → ScanRes
  | 0, _ => .fuelOut
  | fuel + 1, s =>
    if s.current < s.srcLen then
      match s.chars[s.current]? with
      | none => .panic
      | some c =>
        if c = '\n' then .ok s
        else commentLoop fuel { s with current := s.current + 1 }
    else .ok s

/-- One iteration of the `while !self.at_end()` body of
`Scanner::scan_tokens`: set `start`, `advance`, and dispatch on the
character.  Inner loops receive `srcLen + 1` fuel, which exceeds the number
of iterations any of them can perform. -/
def scanStep (s : Scanner) : ScanRes :=
  let s := { s with start := s.current }
  match advance s with
  | none => .panic
  | some (c, s) =>
    let emit : TokenType → ScanRes := fun tt => okOf (appendToken s tt)
    if c = '(' then emit TokenType.LeftParen
    else if c = ')' then emit TokenType.RightParen
    else if c = '\x7b' then emit TokenType.LeftBrace
    else if c = '\x7d' then emit TokenType.RightBrace
    else if c = ',' then emit TokenType.Comma
    else if c = '.' then emit TokenType.Dot
    else if c = '-' then emit TokenType.Minus
    else if c = '+' then emit TokenType.Plus
    else if c = ';' then emit TokenType.Semicolon
    else if c = '*' then emit TokenType.Star
    else if c = '!' then
      match nextIs s '=' with
      | none => .panic
      | some (true, s) => okOf (appendToken s TokenType.BangEqual)
      | some (false, s) => okOf (appendToken s TokenType.Bang)
    else if c = '=' then
      match nextIs s '=' with
      | none => .panic
      | some (true, s) => okOf (appendToken s TokenType.EqualEqual)
      | some (false, s) => okOf (appendToken s TokenType.Equal)
    else if c = '<' then
      match nextIs s '=' with
      | none => .panic
      | some (true, s) => okOf (appendToken s TokenType.LessEqual)
      | some (false, s) => okOf (appendToken s TokenType.Less)
    else if c = '>' then
      match nextIs s '=' with
      | none => .panic
      | some (true, s) => okOf (appendToken s TokenType.GreaterEqual)
      | some (false, s) => okOf (appendToken s TokenType.Greater)
    else if c = '/' then
      match nextIs s '/' with
      | none => .panic
      | some (true, s) => commentLoop (s.srcLen + 1) s
      | some (false, s) => okOf (appendToken s TokenType.Slash)
    else if isDigit c then consumeNumber s
    else if c = '"' then consumeString s
    else if c = '\n' then .ok { s with line := s.line + 1 }
    else if c = '\t' then .ok s
    else .ok (loxError s s.line ("Unexpected character: ".push c))

/-- The `while !self.at_end()` loop of `Scanner::scan_tokens`. -/
def scanLoop : Nat → Scanner → ScanRes
  | 0, _ => .fuelOut
  | fuel + 1, s =>
    if s.current < s.srcLen then
      match scanStep s with
      | .panic => .panic
      | .fuelOut => .fuelOut
      | .ok s' => scanLoop fuel s'
    else .ok s

/-- The end-of-input marker pushed by `Scanner::scan_tokens` after the loop:
kind `Eof`, empty lexeme, `Nil` literal, current line. -/
def eofToken (line : Nat) : Token :=
  ⟨TokenType.Eof, [], LiteralType.Nil, line⟩

/-- Rust `Scanner::scan_tokens` on a scanner state: run the loop (with fuel
`srcLen + 1`, which exceeds the possible number of iterations since every
step strictly advances the cursor), then push the end-of-input marker.  The
`result` field of the returned state is the `Vec<Token>` that Rust returns. -/
def scanTokens (s : Scanner) : ScanRes :=
  match scanLoop (s.srcLen + 1) s with
  | .panic => .panic
  | .fuelOut => .fuelOut
  | .ok s1 => .ok { s1 with result := s1.result ++ [eofToken s1.line] }

/-- Scan an input, as the driver does: `Scanner::new(input).scan_tokens()`. -/
def scan (input : List Char) : ScanRes := scanTokens (Scanner.new input)

/-- The token list produced by a scan (empty when the scan panicked). -/
def resTokens : ScanRes → List Token
  | .ok s => s.result
  | _ => []

/-- The diagnostics produced by a scan (empty when the scan panicked). -/
def resErrors : ScanRes → List (Nat × String)
  | .ok s => s.errors
  | _ => []

/-- The line-counting invariant of the cursor: the line counter equals one
plus the number of newline characters among the consumed characters. -/
def LineInv (s : Scanner) : Prop :=
  s.line = 1 + (s.chars.take s.current).count '\n'

/-- What one scanner operation preserves or establishes, sufficient to carry
the token-sequence invariants through the scanning loop. -/
structure Pres (s s' : Scanner) : Prop where
  chars_eq : s'.chars = s.chars
  srcLen_eq : s'.srcLen = s.srcLen
  current_le : s.current ≤ s'.current
  current_bound : s.current ≤ s.chars.length → s'.current ≤ s.chars.length
  line_le : s.line ≤ s'.line
  line_inv : LineInv s → LineInv s'
  result_ext : ∃ ts, s'.result = s.result ++ ts ∧
    (∀ t ∈ ts, t.token_type ≠ TokenType.Eof ∧ s.line ≤ t.line ∧
      t.line ≤ s'.line) ∧
    List.Chain' (fun a b => a.line ≤ b.line) ts

/-! ### Basic lemmas -/

theorem Pres.refl (s : Scanner) : Pres s s :=
  ⟨rfl, rfl, Nat.le_refl _, fun h => h, Nat.le_refl _, fun h => h,
    ⟨[], by simp, by simp, List.chain'_nil⟩⟩

theorem Pres.trans {s s' s'' : Scanner} (h1 : Pres s s') (h2 : Pres s' s'') :
    Pres s s'' := by
  refine ⟨h2.chars_eq.trans h1.chars_eq, h2.srcLen_eq.trans h1.srcLen_eq,
    h1.current_le.trans h2.current_le, ?_, h1.line_le.trans h2.line_le,
    fun h => h2.line_inv (h1.line_inv h), ?_⟩
  · intro hb
    have := h2.current_bound
    rw [h1.chars_eq] at this
    exact this (h1.current_bound hb)
  · obtain ⟨ts1, he1, hm1, hc1⟩ := h1.result_ext
    obtain ⟨ts2, he2, hm2, hc2⟩ := h2.result_ext
    refine ⟨ts1 ++ ts2, by rw [he2, he1, List.append_assoc], ?_, ?_⟩
    · intro t ht
      rcases List.mem_append.mp ht with h | h
      · obtain ⟨hn, hl, hu⟩ := hm1 t h
        exact ⟨hn, hl, hu.trans h2.line_le⟩
      · obtain ⟨hn, hl, hu⟩ := hm2 t h
        exact ⟨hn, h1.line_le.trans hl, hu⟩
    · refine List.Chain'.append hc1 hc2 ?_
      intro x hx y hy
      have hxu := (hm1 x (List.mem_of_mem_getLast? hx)).2.2
      have hyl := (hm2 y (List.mem_of_mem_head? hy)).2.1
      exact hxu.trans hyl

theorem length_le_utf8Len (cs : List Char) : cs.length ≤ utf8Len cs := by
  induction cs with
  | nil => simp [utf8Len]
  | cons c cs ih =>
    have := Char.utf8Size_pos c
    simp only [utf8Len, List.map_cons, List.sum_cons, List.length_cons] at *
    omega

theorem utf8Len_of_ascii {cs : List Char} (h : ∀ c ∈ cs, c.utf8Size = 1) :
    utf8Len cs = cs.length := by
  induction cs with
  | nil => simp [utf8Len]
  | cons c cs ih =>
    have hc := h c (by simp)
    have := ih (fun x hx => h x (by simp [hx]))
    simp only [utf8Len, List.map_cons, List.sum_cons, List.length_cons] at *
    omega

theorem dropBytes_ascii {cs : List Char} (h : ∀ c ∈ cs, c.utf8Size = 1)
    {n : Nat} (hn : n ≤ cs.length) : dropBytes cs n = some (cs.drop n) := by
  induction cs generalizing n with
  | nil =>
    have : n = 0 := by simpa using hn
    subst this; simp [dropBytes]
  | cons c cs ih =>
    cases n with
    | zero => simp [dropBytes]
    | succ m =>
      have hc := h c (by simp)
      simp only [dropBytes, hc]
      rw [if_pos (by omega)]
      have : m + 1 - 1 = m := by omega
      rw [this]
      simp only [List.drop_succ_cons]
      exact ih (fun x hx => h x (by simp [hx])) (by simpa using hn)

theorem takeBytes_ascii {cs : List Char} (h : ∀ c ∈ cs, c.utf8Size = 1)
    {n : Nat} (hn : n ≤ cs.length) : takeBytes cs n = some (cs.take n) := by
  induction cs generalizing n with
  | nil =>
    have : n = 0 := by simpa using hn
    subst this; simp [takeBytes]
  | cons c cs ih =>
    cases n with
    | zero => simp [takeBytes]
    | succ m =>
      have hc := h c (by simp)
      simp only [takeBytes, hc]
      rw [if_pos (by omega)]
      have : m + 1 - 1 = m := by omega
      rw [this, ih (fun x hx => h x (by simp [hx])) (by simpa using hn)]
      simp

theorem byteSlice_ascii {cs : List Char} (h : ∀ c ∈ cs, c.utf8Size = 1)
    {a b : Nat} (hab : a ≤ b) (hb : b ≤ cs.length) :
    byteSlice cs a b = some ((cs.drop a).take (b - a)) := by
  unfold byteSlice
  rw [if_pos hab, dropBytes_ascii h (by omega)]
  rw [Option.some_bind]
  exact takeBytes_ascii (fun x hx => h x (List.mem_of_mem_drop hx))
    (by rw [List.length_drop]; omega)

theorem getElem?_shift {α : Type} (pre l : List α) (k : Nat) :
    (pre ++ l)[pre.length + k]? = l[k]? := by
  rw [List.getElem?_append_right (by omega)]
  congr 1
  omega

theorem getElem?_at {α : Type} (L : List α) (c : α) (R : List α) :
    (L ++ c :: R)[L.length]? = some c := by
  simpa using getElem?_shift L (c :: R) 0

theorem isDigit_ne {c x : Char} (h : isDigit c = true) (hx : isDigit x = false) :
    c ≠ x := by
  intro he
  subst he
  rw [h] at hx
  cases hx

theorem takeWhile_append_not {α : Type} {p : α → Bool} {l₁ l₂ : List α}
    (h1 : ∀ c ∈ l₁, p c = true) (h2 : ∀ c, l₂.head? = some c → p c = false) :
    (l₁ ++ l₂).takeWhile p = l₁ := by
  rw [List.takeWhile_append, List.takeWhile_eq_self_iff.mpr h1, if_pos rfl]
  cases l₂ with
  | nil => simp
  | cons c t => rw [List.takeWhile_cons_of_neg (by simp [h2 c rfl])]; simp

theorem dropWhile_append_not {α : Type} {p : α → Bool} {l₁ l₂ : List α}
    (h1 : ∀ c ∈ l₁, p c = true) (h2 : ∀ c, l₂.head? = some c → p c = false) :
    (l₁ ++ l₂).dropWhile p = l₂ := by
  rw [List.dropWhile_append, List.dropWhile_eq_nil_iff.mpr h1]
  simp only [List.isEmpty_nil, if_pos rfl]
  cases l₂ with
  | nil => simp
  | cons c t => exact List.dropWhile_cons_of_neg (by simp [h2 c rfl])

/-! ### Runs of the three inner loops -/

/-- Running the string-body loop over a body free of closing quotes, up to a
closing quote or the end of the input: the cursor moves past the body and the
line counter increases by the number of newlines in the body. -/
theorem stringLoop_run (body : List Char) (fuel : Nat) (s : Scanner)
    (pre post : List Char)
    (hchars : s.chars = pre ++ (body ++ post))
    (hcur : s.current = pre.length)
    (hsrc : s.srcLen = s.chars.length)
    (hbody : ∀ c ∈ body, c ≠ '"')
    (hpost : post = [] ∨ ∃ post', post = '"' :: post')
    (hfuel : body.length < fuel) :
    stringLoop fuel s =
      .ok { s with current := s.current + body.length,
                   line := s.line + body.count '\n' } := by
  induction body generalizing fuel s pre with
  | nil =>
    cases fuel with
    | zero => omega
    | succ f =>
      simp only [List.nil_append] at hchars
      rcases hpost with h | ⟨post', h⟩
      · subst h
        have hend : ¬ s.current < s.srcLen := by
          rw [hsrc, hchars, hcur, List.append_nil]; omega
        simp only [stringLoop, if_neg hend]
        rfl
      · subst h
        have hlt : s.current < s.srcLen := by
          rw [hsrc, hchars, hcur, List.length_append, List.length_cons]; omega
        have hget : s.chars[s.current]? = some '"' := by
          rw [hchars, hcur]
          simpa using getElem?_shift pre ('"' :: post') 0
        simp only [stringLoop, if_pos hlt, hget]
        rw [if_pos trivial]
        rfl
  | cons b rest ih =>
    cases fuel with
    | zero => simp at hfuel
    | succ f =>
      have hlt : s.current < s.srcLen := by
        rw [hsrc, hchars, hcur, List.length_append, List.length_append,
          List.length_cons]
        omega
      have hget : s.chars[s.current]? = some b := by
        rw [hchars, hcur, List.cons_append]
        simpa using getElem?_shift pre (b :: (rest ++ post)) 0
      have hbq : ¬ b = '"' := hbody b (by simp)
      simp only [stringLoop, if_pos hlt, hget, if_neg hbq]
      have hstep := ih f
        { s with line := if b = '\n' then s.line + 1 else s.line,
                 current := s.current + 1 }
        (pre ++ [b])
        (by simp only [hchars]; simp [List.append_assoc])
        (by simp [hcur])
        (by simpa using hsrc)
        (fun c hc => hbody c (by simp [hc]))
        (by simp at hfuel; omega)
      rw [hstep]
      by_cases hb : b = '\n' <;>
        simp [hb, ScanRes.ok.injEq, Scanner.mk.injEq, List.count_cons,
          List.length_cons] <;>
        omega

/-- Running the digit loop over a maximal digit run: the cursor moves past
the run and nothing else changes. -/
theorem numberLoop_run (ds : List Char) (fuel : Nat) (s : Scanner)
    (pre post : List Char)
    (hchars : s.chars = pre ++ (ds ++ post))
    (hcur : s.current = pre.length)
    (hsrc : s.srcLen = s.chars.length)
    (hds : ∀ c ∈ ds, isDigit c = true)
    (hpost : ∀ c, post.head? = some c → isDigit c = false)
    (hfuel : ds.length < fuel) :
    numberLoop fuel s = .ok { s with current := s.current + ds.length } := by
  induction ds generalizing fuel s pre with
  | nil =>
    cases fuel with
    | zero => omega
    | succ f =>
      simp only [List.nil_append] at hchars
      cases post with
      | nil =>
        have hend : ¬ s.current < s.srcLen := by
          rw [hsrc, hchars, hcur, List.append_nil]; omega
        simp only [numberLoop, if_neg hend]
        rfl
      | cons c post' =>
        have hlt : s.current < s.srcLen := by
          rw [hsrc, hchars, hcur, List.length_append, List.length_cons]; omega
        have hget : s.chars[s.current]? = some c := by
          rw [hchars, hcur]
          simpa using getElem?_shift pre (c :: post') 0
        have hnd : isDigit c = false := hpost c rfl
        simp only [numberLoop, if_pos hlt, hget, hnd]
        rfl
  | cons b rest ih =>
    cases fuel with
    | zero => simp at hfuel
    | succ f =>
      have hlt : s.current < s.srcLen := by
        rw [hsrc, hchars, hcur, List.length_append, List.length_append,
          List.length_cons]
        omega
      have hget : s.chars[s.current]? = some b := by
        rw [hchars, hcur, List.cons_append]
        simpa using getElem?_shift pre (b :: (rest ++ post)) 0
      have hbd : isDigit b = true := hds b (by simp)
      simp only [numberLoop, if_pos hlt, hget, hbd]
      have hstep := ih f { s with current := s.current + 1 } (pre ++ [b])
        (by simp only [hchars]; simp [List.append_assoc])
        (by simp [hcur])
        (by simpa using hsrc)
        (fun c hc => hds c (by simp [hc]))
        (by simp at hfuel; omega)
      rw [hstep]
      simp [ScanRes.ok.injEq, Scanner.mk.injEq, List.length_cons]
      all_goals omega

/-- Running the comment loop over a newline-free body up to a newline or end
of input: the cursor moves past the body and nothing else changes. -/
theorem commentLoop_run (body : List Char) (fuel : Nat) (s : Scanner)
    (pre post : List Char)
    (hchars : s.chars = pre ++ (body ++ post))
    (hcur : s.current = pre.length)
    (hsrc : s.srcLen = s.chars.length)
    (hbody : ∀ c ∈ body, c ≠ '\n')
    (hpost : post = [] ∨ ∃ post', post = '\n' :: post')
    (hfuel : body.length < fuel) :
    commentLoop fuel s = .ok { s with current := s.current + body.length } := by
  induction body generalizing fuel s pre with
  | nil =>
    cases fuel with
    | zero => omega
    | succ f =>
      simp only [List.nil_append] at hchars
      rcases hpost with h | ⟨post', h⟩
      · subst h
        have hend : ¬ s.current < s.srcLen := by
          rw [hsrc, hchars, hcur, List.append_nil]; omega
        simp only [commentLoop, if_neg hend]
        rfl
      · subst h
        have hlt : s.current < s.srcLen := by
          rw [hsrc, hchars, hcur, List.length_append, List.length_cons]; omega
        have hget : s.chars[s.current]? = some '\n' := by
          rw [hchars, hcur]
          simpa using getElem?_shift pre ('\n' :: post') 0
        simp only [commentLoop, if_pos hlt, hget]
        rw [if_pos trivial]
        rfl
  | cons b rest ih =>
    cases fuel with
    | zero => simp at hfuel
    | succ f =>
      have hlt : s.current < s.srcLen := by
        rw [hsrc, hchars, hcur, List.length_append, List.length_append,
          List.length_cons]
        omega
      have hget : s.chars[s.current]? = some b := by
        rw [hchars, hcur, List.cons_append]
        simpa using getElem?_shift pre (b :: (rest ++ post)) 0
      have hbq : ¬ b = '\n' := hbody b (by simp)
      simp only [commentLoop, if_pos hlt, hget, if_neg hbq]
      have hstep := ih f { s with current := s.current + 1 } (pre ++ [b])
        (by simp only [hchars]; simp [List.append_assoc])
        (by simp [hcur])
        (by simpa using hsrc)
        (fun c hc => hbody c (by simp [hc]))
        (by simp at hfuel; omega)
      rw [hstep]
      simp [ScanRes.ok.injEq, Scanner.mk.injEq, List.length_cons]
      all_goals omega

/-! ### Characterization of `consume_string` -/

/-- A terminated string literal: the scanner consumes the body and the
closing quote, counts the newlines of the body, and emits one `TString`
token whose literal is exactly the text strictly between the quotes and
whose line is the line counter *after* the body (the closing-quote line). -/
theorem consumeString_spec (s : Scanner) (pre body post : List Char)
    (hchars : s.chars = pre ++ '"' :: (body ++ '"' :: post))
    (hstart : s.start = pre.length)
    (hcur : s.current = s.start + 1)
    (hascii : ∀ c ∈ s.chars, c.utf8Size = 1)
    (hsrc : s.srcLen = s.chars.length)
    (hbody : ∀ c ∈ body, c ≠ '"') :
    consumeString s =
      .ok { s with
        current := s.current + body.length + 1,
        line := s.line + body.count '\n',
        result := s.result ++
          [⟨TokenType.TString, '"' :: (body ++ ['"']),
            LiteralType.StringLiteral body,
            s.line + body.count '\n'⟩] } := by
  have hlen : s.chars.length = pre.length + 1 + body.length + 1 + post.length := by
    rw [hchars]; simp; omega
  have hchars' : s.chars = (pre ++ ['"']) ++ (body ++ '"' :: post) := by
    rw [hchars]; simp
  have hrun := stringLoop_run body (s.srcLen + 1) s (pre ++ ['"']) ('"' :: post)
    hchars' (by simp [hcur, hstart]) hsrc hbody (Or.inr ⟨post, rfl⟩)
    (by rw [hsrc, hlen]; omega)
  unfold consumeString
  rw [hrun]
  have hne : ¬ (atEnd { s with
      current := s.current + body.length,
      line := s.line + body.count '\n' } = true) := by
    simp only [atEnd, decide_eq_true_eq]
    rw [hsrc, hlen, hcur, hstart]
    omega
  show ite _ _ _ = _
  rw [if_neg hne]
  have hchars2 : s.chars = (pre ++ '"' :: body) ++ ('"' :: post) := by
    rw [hchars]; simp
  have hget : s.chars[s.current + body.length]? = some '"' := by
    rw [hchars2]
    have : s.current + body.length = (pre ++ '"' :: body).length := by
      simp [hcur, hstart]; omega
    rw [this]
    exact getElem?_at _ '"' post
  have hsub : s.current + body.length + 1 - 1 = s.current + body.length := by omega
  have hval : byteSlice s.chars (s.start + 1) (s.current + body.length) =
      some body := by
    rw [byteSlice_ascii hascii (by omega) (by rw [hlen]; omega), hcur]
    have hd : s.chars.drop (s.start + 1) = body ++ '"' :: post := by
      rw [hchars']
      have : s.start + 1 = (pre ++ ['"']).length := by simp [hstart]
      rw [this, List.drop_left]
    rw [hd]
    have : s.start + 1 + body.length - (s.start + 1) = body.length := by omega
    rw [this, List.take_left]
  have hlex : byteSlice s.chars s.start (s.current + body.length + 1) =
      some ('"' :: (body ++ ['"'])) := by
    rw [byteSlice_ascii hascii (by omega) (by rw [hlen, hcur, hstart]; omega)]
    have hd : s.chars.drop s.start = '"' :: (body ++ '"' :: post) := by
      rw [hchars, hstart, List.drop_left]
    rw [hd, hcur]
    have : s.start + 1 + body.length + 1 - s.start = body.length + 2 := by omega
    rw [this]
    have h2 : ('"' :: (body ++ '"' :: post)).take (body.length + 2) =
        '"' :: (body ++ '"' :: post).take (body.length + 1) := by
      simp [List.take_succ_cons]
    rw [h2]
    have h3 : (body ++ '"' :: post).take (body.length + 1) = body ++ ['"'] := by
      have := @List.take_append _ body ('"' :: post) 1
      simpa using this
    rw [h3]
  simp only [advance, hget, hsub, hval, appendTokenLiteral, hlex, okOf]

/-- An unterminated string literal: the scanner consumes everything to the
end of input, counts the newlines, reports "Unterminated string." at the
line where it ran out of input, and emits no token. -/
theorem consumeString_unterminated (s : Scanner) (pre body : List Char)
    (hchars : s.chars = pre ++ '"' :: body)
    (hstart : s.start = pre.length)
    (hcur : s.current = s.start + 1)
    (hsrc : s.srcLen = s.chars.length)
    (hbody : ∀ c ∈ body, c ≠ '"') :
    consumeString s =
      .ok { s with
        current := s.current + body.length,
        line := s.line + body.count '\n',
        errors := s.errors ++
          [(s.line + body.count '\n', "Unterminated string.")] } := by
  have hlen : s.chars.length = pre.length + 1 + body.length := by
    rw [hchars]; simp; omega
  have hchars' : s.chars = (pre ++ ['"']) ++ (body ++ []) := by
    rw [hchars]; simp
  have hrun := stringLoop_run body (s.srcLen + 1) s (pre ++ ['"']) []
    hchars' (by simp [hcur, hstart]) hsrc hbody (Or.inl rfl)
    (by rw [hsrc, hlen]; omega)
  unfold consumeString
  rw [hrun]
  have hend : atEnd { s with
      current := s.current + body.length,
      line := s.line + body.count '\n' } = true := by
    simp only [atEnd, decide_eq_true_eq]
    rw [hsrc, hlen, hcur, hstart]
  show ite _ _ _ = _
  rw [if_pos hend]
  rfl

/-! ### Characterization of `consume_number` -/

theorem isDigit_not_sign {d : Char} (h : isDigit d = true) :
    ¬ (d = '+' ∨ d = '-') := by
  rintro (rfl | rfl) <;> exact absurd h (by decide)

theorem parses_digits (d : Char) (ds : List Char) (hd : isDigit d = true)
    (hds : ∀ c ∈ ds, isDigit c = true) :
    rustParsesF32 (d :: ds) = true := by
  have hman : parsesMantissaExp (d :: ds) = true := by
    unfold parsesMantissaExp
    have h1 : (d :: ds).takeWhile isDigit = d :: ds :=
      List.takeWhile_eq_self_iff.mpr (by
        intro x hx
        rcases List.mem_cons.mp hx with rfl | hx
        · exact hd
        · exact hds x hx)
    have h2 : (d :: ds).dropWhile isDigit = [] :=
      List.dropWhile_eq_nil_iff.mpr (by
        intro x hx
        rcases List.mem_cons.mp hx with rfl | hx
        · exact hd
        · exact hds x hx)
    rw [h2]
    simp [h1]
  have hsign := isDigit_not_sign hd
  unfold rustParsesF32
  simp [hsign, hman]

theorem parses_digits_dot (d : Char) (ds ds2 : List Char)
    (hd : isDigit d = true) (hds : ∀ c ∈ ds, isDigit c = true)
    (hds2 : ∀ c ∈ ds2, isDigit c = true) :
    rustParsesF32 (d :: (ds ++ '.' :: ds2)) = true := by
  have hdot : isDigit '.' = false := by decide
  have htake : (d :: (ds ++ '.' :: ds2)).takeWhile isDigit = d :: ds := by
    rw [List.takeWhile_cons_of_pos hd]
    rw [takeWhile_append_not hds (by rintro c rfl0; cases rfl0; exact hdot)]
  have hdrop : (d :: (ds ++ '.' :: ds2)).dropWhile isDigit = '.' :: ds2 := by
    rw [List.dropWhile_cons_of_pos hd]
    rw [dropWhile_append_not hds (by rintro c rfl0; cases rfl0; exact hdot)]
  have hman : parsesMantissaExp (d :: (ds ++ '.' :: ds2)) = true := by
    have h1 : ds2.takeWhile isDigit = ds2 := List.takeWhile_eq_self_iff.mpr hds2
    have h2 : ds2.dropWhile isDigit = [] := List.dropWhile_eq_nil_iff.mpr hds2
    unfold parsesMantissaExp
    rw [htake, hdrop]
    simp [h1, h2]
  have hsign := isDigit_not_sign hd
  unfold rustParsesF32
  simp [hsign, hman]

/-- Running `finishNumber` on a scanner whose cursor spans exactly `lexbody` from
`start`: the slice succeeds (ASCII input), the parse-check passes, and one
`Number` token is emitted carrying the lexeme text as its literal. -/
theorem finishNumber_spec (s : Scanner) (pre lexbody rest : List Char)
    (hchars : s.chars = pre ++ (lexbody ++ rest))
    (hstart : s.start = pre.length)
    (hcur : s.current = s.start + lexbody.length)
    (hascii : ∀ c ∈ s.chars, c.utf8Size = 1)
    (hparse : rustParsesF32 lexbody = true) :
    finishNumber s =
      .ok { s with result := s.result ++
        [⟨TokenType.Number, lexbody, LiteralType.NumberLiteral lexbody,
          s.line⟩] } := by
  have hlen : s.chars.length = pre.length + lexbody.length + rest.length := by
    rw [hchars]; simp; omega
  have hval : byteSlice s.chars s.start s.current = some lexbody := by
    rw [byteSlice_ascii hascii (by omega) (by rw [hlen, hcur, hstart]; omega)]
    rw [hchars, hstart, List.drop_left, hcur, hstart]
    have : pre.length + lexbody.length - pre.length = lexbody.length := by omega
    rw [this, List.take_left]
  simp only [finishNumber, hval, hparse, if_true, appendTokenLiteral, okOf]

/-- Rust `consume_number` after the leading digit `d` has been consumed: it
consumes the maximal run of digits; it then consumes a `'.'` and a second
maximal digit run exactly when the character after the first run is `'.'`
and the character after that `'.'` is a digit (`fracExt`); a trailing `'.'`
not followed by a digit is left unconsumed; and the emitted `Number` token
carries as literal exactly the parse input, the accumulated lexeme. -/
theorem consumeNumber_spec (s : Scanner) (pre : List Char) (d : Char)
    (tail : List Char)
    (hchars : s.chars = pre ++ d :: tail)
    (hstart : s.start = pre.length)
    (hcur : s.current = s.start + 1)
    (hd : isDigit d = true)
    (hascii : ∀ c ∈ s.chars, c.utf8Size = 1)
    (hsrc : s.srcLen = s.chars.length) :
    consumeNumber s =
      .ok { s with
        current := s.current + (tail.takeWhile isDigit).length +
          (fracExt (tail.dropWhile isDigit)).length,
        result := s.result ++
          [⟨TokenType.Number,
            d :: (tail.takeWhile isDigit ++ fracExt (tail.dropWhile isDigit)),
            LiteralType.NumberLiteral
              (d :: (tail.takeWhile isDigit ++
                fracExt (tail.dropWhile isDigit))),
            s.line⟩] } := by
  obtain ⟨ds, hds_def⟩ : ∃ ds, tail.takeWhile isDigit = ds := ⟨_, rfl⟩
  obtain ⟨post, hpost_def⟩ : ∃ post, tail.dropWhile isDigit = post := ⟨_, rfl⟩
  rw [hds_def, hpost_def]
  have htail : tail = ds ++ post := by
    rw [← hds_def, ← hpost_def, List.takeWhile_append_dropWhile]
  have hds : ∀ c ∈ ds, isDigit c = true := by
    intro c hc; rw [← hds_def] at hc; exact List.mem_takeWhile_imp hc
  have hposth : ∀ c, post.head? = some c → isDigit c = false := by
    intro c hc
    have h := List.head?_dropWhile_not isDigit tail
    rw [hpost_def, hc] at h
    exact h
  have hlen : s.chars.length = pre.length + 1 + ds.length + post.length := by
    rw [hchars, htail]; simp; omega
  have hrun1 := numberLoop_run ds (s.srcLen + 1) s (pre ++ [d]) post
    (by rw [hchars, htail]; simp)
    (by simp [hcur, hstart])
    hsrc hds hposth
    (by rw [hsrc, hlen]; omega)
  cases post with
  | nil =>
    have hpeek : peek { s with current := s.current + ds.length } =
        some (Char.ofNat 0) := by
      have hcond : atEnd { s with current := s.current + ds.length } = true := by
        simp only [atEnd, decide_eq_true_eq]
        show s.srcLen ≤ s.current + ds.length
        rw [hsrc, hlen, hcur, hstart]; simp
      simp [peek, hcond]
    simp only [consumeNumber, hrun1, hpeek]
    rw [if_neg (show ¬ ((Char.ofNat 0) = '.') from by decide)]
    rw [finishNumber_spec { s with current := s.current + ds.length } pre
      (d :: ds) []
      (by rw [hchars, htail]; simp)
      hstart
      (by show s.current + ds.length = s.start + (d :: ds).length
          rw [hcur]; simp <;> omega)
      hascii
      (parses_digits d ds hd hds)]
    simp [fracExt]
  | cons p post' =>
    have hlt : s.current + ds.length < s.srcLen := by
      rw [hsrc, hlen, hcur, hstart]; simp <;> omega
    have hchars2 : s.chars = (pre ++ d :: ds) ++ (p :: post') := by
      rw [hchars, htail]; simp
    have hget1 : s.chars[s.current + ds.length]? = some p := by
      rw [hchars2]
      have : s.current + ds.length = (pre ++ d :: ds).length := by
        rw [hcur, hstart]; simp <;> omega
      rw [this]
      exact getElem?_at _ p post'
    have hnend : ¬ (atEnd { s with current := s.current + ds.length } = true) := by
      simp only [atEnd, decide_eq_true_eq]
      show ¬ (s.srcLen ≤ s.current + ds.length)
      omega
    have hpeek : peek { s with current := s.current + ds.length } = some p := by
      simp only [peek]
      rw [if_neg hnend]
      exact hget1
    by_cases hp : p = '.'
    · subst hp
      cases post' with
      | nil =>
        have hpnext : peekNext { s with current := s.current + ds.length } =
            some (Char.ofNat 0) := by
          simp only [peekNext]
          rw [if_pos]
          show s.srcLen ≤ s.current + ds.length + 1
          rw [hsrc, hlen, hcur, hstart]; simp <;> omega
        simp only [consumeNumber, hrun1, hpeek]
        simp only [hpnext]
        rw [if_neg (show ¬ (isDigit (Char.ofNat 0) = true) from by decide)]
        rw [finishNumber_spec { s with current := s.current + ds.length } pre
          (d :: ds) ['.']
          (by rw [hchars, htail]; simp)
          hstart
          (by show s.current + ds.length = s.start + (d :: ds).length
              rw [hcur]; simp <;> omega)
          hascii
          (parses_digits d ds hd hds)]
        simp [fracExt]
      | cons q post'' =>
        have hpnext : peekNext { s with current := s.current + ds.length } =
            some q := by
          simp only [peekNext]
          rw [if_neg]
          · have hchars3 : s.chars = (pre ++ d :: ds ++ ['.']) ++ (q :: post'') := by
              rw [hchars, htail]; simp
            rw [hchars3]
            show ((pre ++ d :: ds ++ ['.']) ++
              (q :: post''))[s.current + ds.length + 1]? = some q
            have : s.current + ds.length + 1 = (pre ++ d :: ds ++ ['.']).length := by
              rw [hcur, hstart]; simp <;> omega
            rw [this]
            exact getElem?_at _ q post''
          · show ¬ (s.srcLen ≤ s.current + ds.length + 1)
            rw [hsrc, hlen, hcur, hstart]; simp <;> omega
        by_cases hq : isDigit q = true
        · -- fractional part: consume the '.' and the second digit run
          obtain ⟨ds2, hds2_def⟩ : ∃ x, (q :: post'').takeWhile isDigit = x := ⟨_, rfl⟩
          obtain ⟨post2, hpost2_def⟩ : ∃ x, (q :: post'').dropWhile isDigit = x := ⟨_, rfl⟩
          have htail2 : q :: post'' = ds2 ++ post2 := by
            rw [← hds2_def, ← hpost2_def, List.takeWhile_append_dropWhile]
          have hds2 : ∀ c ∈ ds2, isDigit c = true := by
            intro c hc; rw [← hds2_def] at hc; exact List.mem_takeWhile_imp hc
          have hpost2h : ∀ c, post2.head? = some c → isDigit c = false := by
            intro c hc
            have h := List.head?_dropWhile_not isDigit (q :: post'')
            rw [hpost2_def, hc] at h
            exact h
          have hrun2 := numberLoop_run ds2 (s.srcLen + 1)
            { s with current := s.current + ds.length + 1 }
            (pre ++ d :: ds ++ ['.']) post2
            (by show s.chars = (pre ++ d :: ds ++ ['.']) ++ (ds2 ++ post2)
                rw [hchars, htail, htail2]; simp)
            (by show s.current + ds.length + 1 = (pre ++ d :: ds ++ ['.']).length
                rw [hcur, hstart]; simp <;> omega)
            hsrc hds2 hpost2h
            (by have : (q :: post'').length = ds2.length + post2.length := by
                  rw [htail2]; simp
                rw [hsrc, hlen]
                simp at this ⊢
                omega)
          simp only [consumeNumber, hrun1, hpeek]
          simp only [hpnext]
          rw [if_pos hq]
          simp only [advance, hget1, hrun2]
          rw [finishNumber_spec
            { s with current := s.current + ds.length + 1 + ds2.length } pre
            (d :: (ds ++ '.' :: ds2)) post2
            (by rw [hchars, htail, htail2]; simp)
            hstart
            (by show s.current + ds.length + 1 + ds2.length =
                  s.start + (d :: (ds ++ '.' :: ds2)).length
                rw [hcur]; simp <;> omega)
            hascii
            (parses_digits_dot d ds ds2 hd hds hds2)]
          have hfrac : fracExt ('.' :: q :: post'') = '.' :: ds2 := by
            simp [fracExt, hq, hds2_def]
          rw [hfrac]
          simp [ScanRes.ok.injEq, Scanner.mk.injEq, List.length_cons] <;> omega
        · -- the character after the '.' is not a digit: stop at the first run
          simp only [consumeNumber, hrun1, hpeek]
          simp only [hpnext]
          rw [if_neg hq]
          rw [finishNumber_spec { s with current := s.current + ds.length } pre
            (d :: ds) ('.' :: q :: post'')
            (by rw [hchars, htail]; simp)
            hstart
            (by show s.current + ds.length = s.start + (d :: ds).length
                rw [hcur]; simp <;> omega)
            hascii
            (parses_digits d ds hd hds)]
          have hfrac : fracExt ('.' :: q :: post'') = [] := by
            simp [fracExt, hq]
          rw [hfrac]
          simp
    · -- the character after the first run is not '.': stop there
      simp only [consumeNumber, hrun1, hpeek]
      rw [if_neg hp]
      rw [finishNumber_spec { s with current := s.current + ds.length } pre
        (d :: ds) (p :: post')
        (by rw [hchars, htail]; simp)
        hstart
        (by show s.current + ds.length = s.start + (d :: ds).length
            rw [hcur]; simp <;> omega)
        hascii
        (parses_digits d ds hd hds)]
      have hfrac : fracExt (p :: post') = [] := by
        simp [fracExt, hp]
      rw [hfrac]
      simp

/-! ### Preservation lemmas for the scanning loop -/

theorem getElem?_lt {α : Type} {l : List α} {i : Nat} {c : α}
    (h : l[i]? = some c) : i < l.length :=
  (List.getElem?_eq_some_iff.mp h).1

theorem lineInv_consume {s : Scanner} {c : Char}
    (hg : s.chars[s.current]? = some c) (h : LineInv s) :
    LineInv { s with line := if c = '\n' then s.line + 1 else s.line,
                     current := s.current + 1 } := by
  unfold LineInv at h ⊢
  show (if c = '\n' then s.line + 1 else s.line) =
    1 + (s.chars.take (s.current + 1)).count '\n'
  rw [List.take_succ, hg]
  show _ = 1 + (s.chars.take s.current ++ [c]).count '\n'
  rw [List.count_append, h]
  by_cases hc : c = '\n' <;> simp [hc, List.count_cons] <;> omega

theorem Pres.consume (s : Scanner) (c : Char)
    (hg : s.chars[s.current]? = some c) :
    Pres s { s with line := if c = '\n' then s.line + 1 else s.line,
                    current := s.current + 1 } := by
  have hlt := getElem?_lt hg
  refine ⟨rfl, rfl, by show s.current ≤ s.current + 1; omega,
    fun _ => by show s.current + 1 ≤ s.chars.length; omega, ?_,
    lineInv_consume hg, ⟨[], by simp, by simp, List.chain'_nil⟩⟩
  show s.line ≤ if c = '\n' then s.line + 1 else s.line
  by_cases hc : c = '\n' <;> simp [hc]

theorem Pres.consume_ne (s : Scanner) (c : Char)
    (hg : s.chars[s.current]? = some c) (hc : c ≠ '\n') :
    Pres s { s with current := s.current + 1 } := by
  have h := Pres.consume s c hg
  rw [if_neg hc] at h
  exact h

theorem Pres.setStart (s : Scanner) (n : Nat) :
    Pres s { s with start := n } :=
  ⟨rfl, rfl, Nat.le_refl _, fun h => h, Nat.le_refl _, fun h => h,
    ⟨[], by simp, by simp, List.chain'_nil⟩⟩

theorem appendTokenLiteral_pres {s s' : Scanner} {tt : TokenType}
    {lit : LiteralType} (htt : tt ≠ TokenType.Eof)
    (h : appendTokenLiteral s tt lit = some s') : Pres s s' := by
  unfold appendTokenLiteral at h
  split at h
  · cases h
  · cases h
    rename_i lex hb
    refine ⟨rfl, rfl, Nat.le_refl _, fun h => h, Nat.le_refl _, fun h => h,
      ⟨[⟨tt, lex, lit, s.line⟩], rfl, ?_, List.chain'_singleton _⟩⟩
    intro t ht
    rw [List.mem_singleton] at ht
    subst ht
    exact ⟨htt, Nat.le_refl _, Nat.le_refl _⟩

theorem appendToken_pres {s s' : Scanner} {tt : TokenType}
    (htt : tt ≠ TokenType.Eof) (h : appendToken s tt = some s') : Pres s s' :=
  appendTokenLiteral_pres htt h

theorem nextIs_cases {s s' : Scanner} {c : Char} {b : Bool}
    (h : nextIs s c = some (b, s')) :
    s' = s ∨ (s.chars[s.current]? = some c ∧
      s' = { s with current := s.current + 1 }) := by
  unfold nextIs at h
  split at h
  · cases h
    exact Or.inl rfl
  · split at h
    · cases h
    · rename_i ch hg
      split at h
      · cases h
        exact Or.inl rfl
      · cases h
        rename_i hcc
        push_neg at hcc
        subst hcc
        exact Or.inr ⟨hg, rfl⟩

theorem nextIs_pres {s s' : Scanner} {c : Char} {b : Bool} (hc : c ≠ '\n')
    (h : nextIs s c = some (b, s')) : Pres s s' := by
  rcases nextIs_cases h with rfl | ⟨hg, rfl⟩
  · exact Pres.refl _
  · exact Pres.consume_ne _ c hg hc

theorem stringLoop_pres (fuel : Nat) (s s' : Scanner)
    (h : stringLoop fuel s = .ok s') :
    Pres s s' ∧ s'.start = s.start ∧ s'.result = s.result ∧
      s'.errors = s.errors := by
  induction fuel generalizing s with
  | zero => simp [stringLoop] at h
  | succ f ih =>
    rw [stringLoop] at h
    split at h
    · split at h
      · cases h
      · rename_i c hg
        split at h
        · cases h
          exact ⟨Pres.refl _, rfl, rfl, rfl⟩
        · obtain ⟨hp, h1, h2, h3⟩ := ih _ h
          exact ⟨Pres.trans (Pres.consume s c hg) hp,
            by rw [h1], by rw [h2], by rw [h3]⟩
    · cases h
      exact ⟨Pres.refl _, rfl, rfl, rfl⟩

theorem stringLoop_exit (fuel : Nat) (s s' : Scanner)
    (h : stringLoop fuel s = .ok s') :
    s'.srcLen ≤ s'.current ∨ s'.chars[s'.current]? = some '"' := by
  induction fuel generalizing s with
  | zero => simp [stringLoop] at h
  | succ f ih =>
    rw [stringLoop] at h
    split at h
    · split at h
      · cases h
      · rename_i c hg
        split at h
        · rename_i hc
          cases h
          subst hc
          exact Or.inr hg
        · exact ih _ h
    · cases h
      rename_i hlt
      exact Or.inl (by omega)

theorem numberLoop_pres (fuel : Nat) (s s' : Scanner)
    (h : numberLoop fuel s = .ok s') :
    Pres s s' ∧ s'.start = s.start ∧ s'.result = s.result ∧
      s'.errors = s.errors := by
  induction fuel generalizing s with
  | zero => simp [numberLoop] at h
  | succ f ih =>
    rw [numberLoop] at h
    split at h
    · split at h
      · cases h
      · rename_i c hg
        split at h
        · rename_i hc
          obtain ⟨hp, h1, h2, h3⟩ := ih _ h
          exact ⟨Pres.trans
            (Pres.consume_ne s c hg (isDigit_ne hc (by decide))) hp,
            by rw [h1], by rw [h2], by rw [h3]⟩
        · cases h
          exact ⟨Pres.refl _, rfl, rfl, rfl⟩
    · cases h
      exact ⟨Pres.refl _, rfl, rfl, rfl⟩

theorem commentLoop_pres (fuel : Nat) (s s' : Scanner)
    (h : commentLoop fuel s = .ok s') :
    Pres s s' ∧ s'.start = s.start ∧ s'.result = s.result ∧
      s'.errors = s.errors := by
  induction fuel generalizing s with
  | zero => simp [commentLoop] at h
  | succ f ih =>
    rw [commentLoop] at h
    split at h
    · split at h
      · cases h
      · rename_i c hg
        split at h
        · cases h
          exact ⟨Pres.refl _, rfl, rfl, rfl⟩
        · rename_i hc
          obtain ⟨hp, h1, h2, h3⟩ := ih _ h
          exact ⟨Pres.trans (Pres.consume_ne s c hg hc) hp,
            by rw [h1], by rw [h2], by rw [h3]⟩
    · cases h
      exact ⟨Pres.refl _, rfl, rfl, rfl⟩

theorem okOf_ok {o : Option Scanner} {s' : Scanner} (h : okOf o = .ok s') :
    o = some s' := by
  cases o with
  | none => cases h
  | some x => cases h; rfl

theorem peek_eq_some {s : Scanner} {c : Char} (h : peek s = some c)
    (hc : c ≠ Char.ofNat 0) : s.chars[s.current]? = some c := by
  unfold peek at h
  split at h
  · cases h; exact absurd rfl hc
  · exact h

theorem loxError_pres (s : Scanner) (line : Nat) (msg : String) :
    Pres s (loxError s line msg) :=
  ⟨rfl, rfl, Nat.le_refl _, fun h => h, Nat.le_refl _, fun h => h,
    ⟨[], by simp [loxError], by simp, List.chain'_nil⟩⟩

theorem finishNumber_pres {s s' : Scanner} (h : finishNumber s = .ok s') :
    Pres s s' := by
  unfold finishNumber at h
  split at h
  · cases h
  · split at h
    · exact appendTokenLiteral_pres (by decide) (okOf_ok h)
    · cases h

theorem consumeString_pres {s s' : Scanner} (h : consumeString s = .ok s') :
    Pres s s' := by
  unfold consumeString at h
  split at h
  · cases h
  · cases h
  · rename_i s1 heq
    obtain ⟨hp1, _, _, _⟩ := stringLoop_pres _ _ _ heq
    split at h
    · cases h
      exact Pres.trans hp1 (loxError_pres s1 s1.line "Unterminated string.")
    · rename_i hne
      have hexit := stringLoop_exit _ _ _ heq
      have hq : s1.chars[s1.current]? = some '"' := by
        rcases hexit with hend | hq
        · exact absurd (by simp [atEnd]; omega) hne
        · exact hq
      split at h
      · cases h
      · rename_i c2 s2 hadv
        unfold advance at hadv
        split at hadv
        · cases hadv
        · rename_i c3 hg3
          cases hadv
          rw [hq] at hg3
          cases hg3
          split at h
          · cases h
          · exact Pres.trans hp1 (Pres.trans
              (Pres.consume_ne _ _ hq (by decide))
              (appendTokenLiteral_pres (by decide) (okOf_ok h)))

theorem consumeNumber_pres {s s' : Scanner} (h : consumeNumber s = .ok s') :
    Pres s s' := by
  unfold consumeNumber at h
  split at h
  · cases h
  · cases h
  · rename_i s1 heq1
    obtain ⟨hp1, _, _, _⟩ := numberLoop_pres _ _ _ heq1
    split at h
    · cases h
    · rename_i c hpk
      split at h
      · rename_i hcdot
        subst hcdot
        have hg : s1.chars[s1.current]? = some '.' :=
          peek_eq_some hpk (by decide)
        split at h
        · cases h
        · rename_i c2 hpn
          split at h
          · split at h
            · cases h
            · rename_i c3 s2 hadv
              unfold advance at hadv
              split at hadv
              · cases hadv
              · rename_i c4 hg4
                cases hadv
                rw [hg] at hg4
                cases hg4
                split at h
                · cases h
                · cases h
                · rename_i s3 heq2
                  exact Pres.trans hp1 (Pres.trans
                    (Pres.consume_ne _ _ hg (by decide))
                    (Pres.trans (numberLoop_pres _ _ _ heq2).1
                      (finishNumber_pres h)))
          · exact Pres.trans hp1 (finishNumber_pres h)
      · exact Pres.trans hp1 (finishNumber_pres h)

theorem scanStep_pres {s s' : Scanner} (h : scanStep s = .ok s') :
    Pres s s' := by
  unfold scanStep at h
  simp only [] at h
  split at h
  · cases h
  · rename_i c s2 hadv
    unfold advance at hadv
    split at hadv
    · cases hadv
    · rename_i c0 hg
      cases hadv
      have hbase : c ≠ '\n' →
          Pres s { s with start := s.current, current := s.current + 1 } :=
        fun hne => Pres.trans (Pres.setStart s s.current)
          (Pres.consume_ne _ c hg hne)
      by_cases hc1 : c = '('
      · subst hc1
        rw [if_pos rfl] at h
        exact Pres.trans (hbase (by decide))
          (appendToken_pres (by decide) (okOf_ok h))
      rw [if_neg hc1] at h
      by_cases hc2 : c = ')'
      · subst hc2
        rw [if_pos rfl] at h
        exact Pres.trans (hbase (by decide))
          (appendToken_pres (by decide) (okOf_ok h))
      rw [if_neg hc2] at h
      by_cases hc3 : c = '\x7b'
      · subst hc3
        rw [if_pos rfl] at h
        exact Pres.trans (hbase (by decide))
          (appendToken_pres (by decide) (okOf_ok h))
      rw [if_neg hc3] at h
      by_cases hc4 : c = '\x7d'
      · subst hc4
        rw [if_pos rfl] at h
        exact Pres.trans (hbase (by decide))
          (appendToken_pres (by decide) (okOf_ok h))
      rw [if_neg hc4] at h
      by_cases hc5 : c = ','
      · subst hc5
        rw [if_pos rfl] at h
        exact Pres.trans (hbase (by decide))
          (appendToken_pres (by decide) (okOf_ok h))
      rw [if_neg hc5] at h
      by_cases hc6 : c = '.'
      · subst hc6
        rw [if_pos rfl] at h
        exact Pres.trans (hbase (by decide))
          (appendToken_pres (by decide) (okOf_ok h))
      rw [if_neg hc6] at h
      by_cases hc7 : c = '-'
      · subst hc7
        rw [if_pos rfl] at h
        exact Pres.trans (hbase (by decide))
          (appendToken_pres (by decide) (okOf_ok h))
      rw [if_neg hc7] at h
      by_cases hc8 : c = '+'
      · subst hc8
        rw [if_pos rfl] at h
        exact Pres.trans (hbase (by decide))
          (appendToken_pres (by decide) (okOf_ok h))
      rw [if_neg hc8] at h
      by_cases hc9 : c = ';'
      · subst hc9
        rw [if_pos rfl] at h
        exact Pres.trans (hbase (by decide))
          (appendToken_pres (by decide) (okOf_ok h))
      rw [if_neg hc9] at h
      by_cases hc10 : c = '*'
      · subst hc10
        rw [if_pos rfl] at h
        exact Pres.trans (hbase (by decide))
          (appendToken_pres (by decide) (okOf_ok h))
      rw [if_neg hc10] at h
      by_cases hc11 : c = '!'
      · subst hc11
        rw [if_pos rfl] at h
        split at h
        · cases h
        · rename_i s3 hni
          exact Pres.trans (hbase (by decide)) (Pres.trans
            (nextIs_pres (by decide) hni)
            (appendToken_pres (by decide) (okOf_ok h)))
        · rename_i s3 hni
          exact Pres.trans (hbase (by decide)) (Pres.trans
            (nextIs_pres (by decide) hni)
            (appendToken_pres (by decide) (okOf_ok h)))
      rw [if_neg hc11] at h
      by_cases hc12 : c = '='
      · subst hc12
        rw [if_pos rfl] at h
        split at h
        · cases h
        · rename_i s3 hni
          exact Pres.trans (hbase (by decide)) (Pres.trans
            (nextIs_pres (by decide) hni)
            (appendToken_pres (by decide) (okOf_ok h)))
        · rename_i s3 hni
          exact Pres.trans (hbase (by decide)) (Pres.trans
            (nextIs_pres (by decide) hni)
            (appendToken_pres (by decide) (okOf_ok h)))
      rw [if_neg hc12] at h
      by_cases hc13 : c = '<'
      · subst hc13
        rw [if_pos rfl] at h
        split at h
        · cases h
        · rename_i s3 hni
          exact Pres.trans (hbase (by decide)) (Pres.trans
            (nextIs_pres (by decide) hni)
            (appendToken_pres (by decide) (okOf_ok h)))
        · rename_i s3 hni
          exact Pres.trans (hbase (by decide)) (Pres.trans
            (nextIs_pres (by decide) hni)
            (appendToken_pres (by decide) (okOf_ok h)))
      rw [if_neg hc13] at h
      by_cases hc14 : c = '>'
      · subst hc14
        rw [if_pos rfl] at h
        split at h
        · cases h
        · rename_i s3 hni
          exact Pres.trans (hbase (by decide)) (Pres.trans
            (nextIs_pres (by decide) hni)
            (appendToken_pres (by decide) (okOf_ok h)))
        · rename_i s3 hni
          exact Pres.trans (hbase (by decide)) (Pres.trans
            (nextIs_pres (by decide) hni)
            (appendToken_pres (by decide) (okOf_ok h)))
      rw [if_neg hc14] at h
      by_cases hc15 : c = '/'
      · subst hc15
        rw [if_pos rfl] at h
        split at h
        · cases h
        · rename_i s3 hni
          exact Pres.trans (hbase (by decide)) (Pres.trans
            (nextIs_pres (by decide) hni) (commentLoop_pres _ _ _ h).1)
        · rename_i s3 hni
          exact Pres.trans (hbase (by decide)) (Pres.trans
            (nextIs_pres (by decide) hni)
            (appendToken_pres (by decide) (okOf_ok h)))
      rw [if_neg hc15] at h
      by_cases hc16 : isDigit c = true
      · rw [if_pos hc16] at h
        exact Pres.trans (hbase (isDigit_ne hc16 (by decide)))
          (consumeNumber_pres h)
      rw [if_neg hc16] at h
      by_cases hc17 : c = '"'
      · subst hc17
        rw [if_pos rfl] at h
        exact Pres.trans (hbase (by decide)) (consumeString_pres h)
      rw [if_neg hc17] at h
      by_cases hc18 : c = '\n'
      · subst hc18
        rw [if_pos rfl] at h
        cases h
        refine Pres.trans (Pres.setStart s s.current) ?_
        have hcon := Pres.consume { s with start := s.current } '\n' hg
        rw [if_pos rfl] at hcon
        exact hcon
      rw [if_neg hc18] at h
      by_cases hc19 : c = '\t'
      · subst hc19
        rw [if_pos rfl] at h
        cases h
        exact hbase (by decide)
      rw [if_neg hc19] at h
      cases h
      exact Pres.trans (hbase hc18) (loxError_pres _ _ _)

theorem scanLoop_ok (fuel : Nat) (s s' : Scanner)
    (h : scanLoop fuel s = .ok s') :
    Pres s s' ∧ s'.srcLen ≤ s'.current := by
  induction fuel generalizing s with
  | zero => simp [scanLoop] at h
  | succ f ih =>
    rw [scanLoop] at h
    split at h
    · split at h
      · cases h
      · cases h
      · rename_i s1 hstep
        obtain ⟨hp, hend⟩ := ih _ h
        exact ⟨Pres.trans (scanStep_pres hstep) hp, hend⟩
    · cases h
      rename_i hlt
      exact ⟨Pres.refl _, by omega⟩

/-! ### Claim theorems -/

/-- C1: the claim that `scan_tokens` runs to completion without a hard
failure on every input, including non-ASCII text, fails on the code: on the
single-character input `é` (U+00E9, 2 UTF-8 bytes), `at_end` compares the
character cursor against the byte length 2, so after consuming the one
character the loop runs again and `advance` indexes `chars[1]` out of
bounds — a Rust panic, modelled by `ScanRes.panic`. -/
theorem claim1_nonAscii_input_panics :
    scan [Char.ofNat 233] = ScanRes.panic := by decide

/-- C10: the claim that every finite input is fully consumed fails on the
code: on the input `é;x` the lexeme slice for the `;` token takes byte range
`[1, 2)`, which starts inside the two-byte encoding of `é`; Rust panics on
the non-boundary slice before the character `x` is ever consumed. -/
theorem claim10_slice_panics_before_consuming_all :
    scan [Char.ofNat 233, ';', 'x'] = ScanRes.panic := by decide

/-- C2 counterexample: scanning a single space yields only the end-of-input
marker, but the shared error flag does NOT stay clear — the space character
has no arm in the `match` (only `'\t'` does) and falls through to the
unexpected-character branch, recording a diagnostic. -/
theorem claim2_space_counterexample :
    (resTokens (scan [' '])).map Token.token_type = [TokenType.Eof] ∧
      resErrors (scan [' ']) = [(1, "Unexpected character:  ")] ∧
      ¬ resErrors (scan [' ']) = [] := by decide

/-- C3 counterexample: a string literal whose opening quote is on line 1 but
which spans to line 2 carries line 2 (the closing-quote line), not line 1 as
the claim states: `consume_string` increments the line counter while
consuming the body and stamps the token afterwards. -/
theorem claim3_multiline_string_line_counterexample :
    (resTokens (scan ['"', 'a', '\n', 'b', '"'])).map Token.line = [2, 2] ∧
      ¬ (resTokens (scan ['"', 'a', '\n', 'b', '"'])).map Token.line
        = [1, 2] := by decide

/-- C2 (amended): a horizontal tab that starts a scanning step (hence is not
inside a string literal) is skipped: the step consumes exactly that
character and leaves the token list, the diagnostics, and the line counter
unchanged — only the cursor fields move.  (Unlike the original claim, this
does not extend to other whitespace: a space hits the unexpected-character
branch, see the counterexample.) -/
theorem claim2_tab_skipped_silently (s : Scanner)
    (hg : s.chars[s.current]? = some '\t') :
    scanStep s = .ok { s with start := s.current, current := s.current + 1 } := by
  unfold scanStep
  simp [advance, hg, show isDigit '\t' = false from by decide]

/-- Witness for claim2_tab_skipped_silently: scanning step on the one-tab
input consumes the tab and produces no token and no diagnostic. -/
theorem claim2_tab_skipped_silently_witness :
    scanStep (Scanner.new ['\t']) =
      .ok
      { chars := ['\t'], srcLen := 1, start := 0, current := 1,
            line := 1, result := [], errors := [] } :=
  claim2_tab_skipped_silently (Scanner.new ['\t']) rfl

/-- C4: for every input on which `scan_tokens` returns, the returned token
sequence is nonempty, its last element is the end-of-input marker (kind
`Eof`, empty lexeme, stamped with the final line), and no element other
than the last has kind `Eof`. -/
theorem claim4_eof_marker (cs : List Char) (r : Scanner)
    (h : scan cs = .ok r) :
    r.result ≠ [] ∧ r.result.getLast? = some (eofToken r.line) ∧
      ∀ t ∈ r.result.dropLast, t.token_type ≠ TokenType.Eof := by
  unfold scan scanTokens at h
  split at h
  · cases h
  · cases h
  · rename_i s1 hloop
    cases h
    obtain ⟨hp, hend⟩ := scanLoop_ok _ _ _ hloop
    obtain ⟨ts, hres, hmem, hchain⟩ := hp.result_ext
    have h0 : s1.result = ts := by simpa [Scanner.new] using hres
    refine ⟨by simp, ?_, ?_⟩
    · show (s1.result ++ [eofToken s1.line]).getLast? = some (eofToken s1.line)
      exact List.getLast?_concat _
    · show ∀ t ∈ (s1.result ++ [eofToken s1.line]).dropLast,
        t.token_type ≠ TokenType.Eof
      rw [List.dropLast_concat, h0]
      intro t ht
      exact (hmem t ht).1

/-- Witness for claim4_eof_marker at the input `()`. -/
theorem claim4_eof_marker_witness :
    scan ['(', ')'] = ScanRes.ok
      { chars := ['(', ')'], srcLen := 2, start := 1, current := 2, line := 1,
        result := [⟨TokenType.LeftParen, ['('], LiteralType.Nil, 1⟩,
          ⟨TokenType.RightParen, [')'], LiteralType.Nil, 1⟩,
          ⟨TokenType.Eof, [], LiteralType.Nil, 1⟩],
        errors := [] } ∧
    ({ chars := ['(', ')'], srcLen := 2, start := 1, current := 2, line := 1,
        result := [⟨TokenType.LeftParen, ['('], LiteralType.Nil, 1⟩,
          ⟨TokenType.RightParen, [')'], LiteralType.Nil, 1⟩,
          ⟨TokenType.Eof, [], LiteralType.Nil, 1⟩],
        errors := [] } : Scanner).result ≠ [] := by
  refine ⟨by decide, ?_⟩
  exact (claim4_eof_marker ['(', ')'] _ (by decide)).1

/-- C9: for every input on which `scan_tokens` returns, the line fields of
the returned token sequence are monotonically non-decreasing, the line
counter starts at 1, and on return it equals 1 plus the number of newline
characters in the input — one increment per newline consumed, including
newlines inside string literals and line comments. -/
theorem claim9_lines_monotone (cs : List Char) (r : Scanner)
    (h : scan cs = .ok r) :
    List.Chain' (· ≤ ·) (r.result.map Token.line) ∧
      (Scanner.new cs).line = 1 ∧ r.line = 1 + cs.count '\n' := by
  unfold scan scanTokens at h
  split at h
  · cases h
  · cases h
  · rename_i s1 hloop
    cases h
    obtain ⟨hp, hend⟩ := scanLoop_ok _ _ _ hloop
    obtain ⟨ts, hres, hmem, hchain⟩ := hp.result_ext
    have h0 : s1.result = ts := by simpa [Scanner.new] using hres
    have hchars : s1.chars = cs := by
      have := hp.chars_eq
      simpa [Scanner.new] using this
    have hsrc : s1.srcLen = utf8Len cs := by
      have := hp.srcLen_eq
      simpa [Scanner.new] using this
    have hbound : s1.current ≤ cs.length := by
      have := hp.current_bound (s := Scanner.new cs) (by simp [Scanner.new])
      simpa [Scanner.new] using this
    have hcur : s1.current = cs.length := by
      have h1 : cs.length ≤ utf8Len cs := length_le_utf8Len cs
      rw [hsrc] at hend
      omega
    have hline : LineInv s1 :=
      hp.line_inv (by simp [LineInv, Scanner.new])
    have hlineval : s1.line = 1 + cs.count '\n' := by
      unfold LineInv at hline
      rw [hchars, hcur, List.take_length] at hline
      exact hline
    refine ⟨?_, rfl, hlineval⟩
    show List.Chain' (· ≤ ·)
      ((s1.result ++ [eofToken s1.line]).map Token.line)
    rw [List.map_append]
    refine List.Chain'.append ?_ (List.chain'_singleton _) ?_
    · rw [h0]
      exact (List.chain'_map Token.line).mpr hchain
    · intro x hx y hy
      simp only [List.map_cons, List.map_nil, List.head?_cons,
        Option.mem_def, Option.some.injEq] at hy
      subst hy
      rw [List.getLast?_map] at hx
      cases hgl : s1.result.getLast? with
      | none => rw [hgl] at hx; cases hx
      | some t =>
        rw [hgl] at hx
        cases hx
        have ht : t ∈ s1.result :=
          List.mem_of_mem_getLast? (by rw [hgl]; rfl)
        rw [h0] at ht
        exact (hmem t ht).2.2

/-- Witness for claim9_lines_monotone at a two-line input. -/
theorem claim9_lines_monotone_witness :
    scan ['(', '\n', ')', '\n'] = ScanRes.ok
      { chars := ['(', '\n', ')', '\n'], srcLen := 4, start := 3,
        current := 4, line := 3,
        result := [⟨TokenType.LeftParen, ['('], LiteralType.Nil, 1⟩,
          ⟨TokenType.RightParen, [')'], LiteralType.Nil, 2⟩,
          ⟨TokenType.Eof, [], LiteralType.Nil, 3⟩],
        errors := [] } ∧
    ({ chars := ['(', '\n', ')', '\n'], srcLen := 4, start := 3,
        current := 4, line := 3,
        result := [⟨TokenType.LeftParen, ['('], LiteralType.Nil, 1⟩,
          ⟨TokenType.RightParen, [')'], LiteralType.Nil, 2⟩,
          ⟨TokenType.Eof, [], LiteralType.Nil, 3⟩],
        errors := [] } : Scanner).line
      = 1 + (['(', '\n', ')', '\n'].count '\n') := by
  refine ⟨by decide, ?_⟩
  exact (claim9_lines_monotone ['(', '\n', ')', '\n'] _ (by decide)).2.2

/-- C5: if end of input is reached while scanning a string literal opened by
an unmatched double quote, the scanner consumes to the end, reports
"Unterminated string." at the line where termination failed (appending a
diagnostic and thereby setting the shared error flag), and emits no token;
the result stays `ok`, so scanning continues. -/
theorem claim5_unterminated_string (s : Scanner) (pre body : List Char)
    (hchars : s.chars = pre ++ '"' :: body)
    (hstart : s.start = pre.length)
    (hcur : s.current = s.start + 1)
    (hsrc : s.srcLen = s.chars.length)
    (hbody : ∀ c ∈ body, c ≠ '"') :
    consumeString s =
      .ok { s with
        current := s.current + body.length,
        line := s.line + body.count '\n',
        errors := s.errors ++
          [(s.line + body.count '\n', "Unterminated string.")] } :=
  consumeString_unterminated s pre body hchars hstart hcur hsrc hbody

/-- Witness for claim5_unterminated_string on the input `"abc` (no closing
quote): a diagnostic at line 1 and no token; the full scan yields just the
end-of-input marker plus that diagnostic. -/
theorem claim5_unterminated_string_witness :
    consumeString
      { chars := ['"', 'a', 'b', 'c'], srcLen := 4, start := 0,
        current := 1, line := 1, result := [], errors := [] } =
      .ok
      { chars := ['"', 'a', 'b', 'c'], srcLen := 4, start := 0,
        current := 4, line := 1, result := [],
        errors := [(1, "Unterminated string.")] } ∧
    scan ['"', 'a', 'b', 'c'] =
      .ok
      { chars := ['"', 'a', 'b', 'c'], srcLen := 4, start := 0,
        current := 4, line := 1,
        result := [⟨TokenType.Eof, [], LiteralType.Nil, 1⟩],
        errors := [(1, "Unterminated string.")] } := by
  constructor
  · exact claim5_unterminated_string
      { chars := ['"', 'a', 'b', 'c'], srcLen := 4, start := 0,
        current := 1, line := 1, result := [], errors := [] }
      [] ['a', 'b', 'c'] rfl rfl rfl rfl (by decide)
  · decide

/-- C8: for every string literal terminated by a matching closing quote, the
scanner consumes the closing quote and emits exactly one `TString` token
whose literal is the source text strictly between the two quotes — taken
verbatim, with no escape-sequence processing. -/
theorem claim8_string_literal (s : Scanner) (pre body post : List Char)
    (hchars : s.chars = pre ++ '"' :: (body ++ '"' :: post))
    (hstart : s.start = pre.length)
    (hcur : s.current = s.start + 1)
    (hascii : ∀ c ∈ s.chars, c.utf8Size = 1)
    (hsrc : s.srcLen = s.chars.length)
    (hbody : ∀ c ∈ body, c ≠ '"') :
    consumeString s =
      .ok { s with
        current := s.current + body.length + 1,
        line := s.line + body.count '\n',
        result := s.result ++
          [⟨TokenType.TString, '"' :: (body ++ ['"']),
            LiteralType.StringLiteral body,
            s.line + body.count '\n'⟩] } :=
  consumeString_spec s pre body post hchars hstart hcur hascii hsrc hbody

/-- Witness for claim8_string_literal on the spec example: the literal of
the emitted token is exactly `this is a string` (quotes stripped), and the
full scan of the quoted text followed by `;` yields
`[TString, Semicolon, Eof]`. -/
theorem claim8_string_literal_witness :
    consumeString
      { chars := '"' :: ("this is a string".toList ++ ['"', ';']),
        srcLen := 19, start := 0, current := 1, line := 1, result := [],
        errors := [] } =
      .ok
      { chars := '"' :: ("this is a string".toList ++ ['"', ';']),
        srcLen := 19, start := 0, current := 18, line := 1,
        result := [⟨TokenType.TString,
          '"' :: ("this is a string".toList ++ ['"']),
          LiteralType.StringLiteral "this is a string".toList, 1⟩],
        errors := [] } ∧
    (resTokens (scan ('"' :: ("this is a string".toList ++ ['"', ';'])))).map
        Token.token_type =
      [TokenType.TString, TokenType.Semicolon, TokenType.Eof] := by
  constructor
  · exact claim8_string_literal
      { chars := '"' :: ("this is a string".toList ++ ['"', ';']),
        srcLen := 19, start := 0, current := 1, line := 1, result := [],
        errors := [] }
      [] "this is a string".toList [';'] rfl rfl rfl (by decide) rfl
      (by decide)
  · decide

/-- C3 (amended): a token is stamped with the scanner's line counter at the
moment it is emitted; for a string literal this is the line reached after
consuming the body, i.e. the closing-quote line — the opening-quote line
plus the number of newlines in the body — not the opening-quote line. -/
theorem claim3_string_token_line_closing (s : Scanner)
    (pre body post : List Char)
    (hchars : s.chars = pre ++ '"' :: (body ++ '"' :: post))
    (hstart : s.start = pre.length)
    (hcur : s.current = s.start + 1)
    (hascii : ∀ c ∈ s.chars, c.utf8Size = 1)
    (hsrc : s.srcLen = s.chars.length)
    (hbody : ∀ c ∈ body, c ≠ '"') :
    ∃ s', consumeString s = .ok s' ∧
      (s'.result.map Token.line).getLast? =
        some (s.line + body.count '\n') := by
  refine ⟨_,
    consumeString_spec s pre body post hchars hstart hcur hascii hsrc hbody,
    ?_⟩
  simp

/-- Witness for claim3_string_token_line_closing on a string literal that
opens on line 1 and closes on line 2: the token carries line 2. -/
theorem claim3_string_token_line_closing_witness :
    ∃ s', consumeString
      { chars := ['"', 'a', '\n', 'b', '"'], srcLen := 5,
        start := 0, current := 1, line := 1, result := [],
        errors := [] } = .ok s' ∧
      (s'.result.map Token.line).getLast? = some 2 :=
  claim3_string_token_line_closing
    { chars := ['"', 'a', '\n', 'b', '"'], srcLen := 5, start := 0,
      current := 1, line := 1, result := [], errors := [] }
    [] ['a', '\n', 'b'] [] rfl rfl rfl (by decide) rfl (by decide)

/-- C7: when a digit starts a token, `consume_number` consumes the maximal
run of digits, consumes a `'.'` and a second maximal digit run exactly when
the character after the first run is `'.'` and the character after that is
a digit (the `fracExt` of the remainder), leaves a trailing `'.'` not
followed by a digit unconsumed, and emits one `Number` token whose literal
is the floating-point parse input — exactly the accumulated lexeme. -/
theorem claim7_number_rule (s : Scanner) (pre : List Char) (d : Char)
    (tail : List Char)
    (hchars : s.chars = pre ++ d :: tail)
    (hstart : s.start = pre.length)
    (hcur : s.current = s.start + 1)
    (hd : isDigit d = true)
    (hascii : ∀ c ∈ s.chars, c.utf8Size = 1)
    (hsrc : s.srcLen = s.chars.length) :
    consumeNumber s =
      .ok { s with
        current := s.current + (tail.takeWhile isDigit).length +
          (fracExt (tail.dropWhile isDigit)).length,
        result := s.result ++
          [⟨TokenType.Number,
            d :: (tail.takeWhile isDigit ++ fracExt (tail.dropWhile isDigit)),
            LiteralType.NumberLiteral
              (d :: (tail.takeWhile isDigit ++
                fracExt (tail.dropWhile isDigit))),
            s.line⟩] } :=
  consumeNumber_spec s pre d tail hchars hstart hcur hd hascii hsrc

/-- Witness for claim7_number_rule on `12.5;` (fractional part consumed) and,
by direct evaluation, on `12.` (trailing dot excluded from the number). -/
theorem claim7_number_rule_witness :
    consumeNumber
      { chars := ['1', '2', '.', '5', ';'], srcLen := 5,
        start := 0, current := 1, line := 1, result := [], errors := [] } =
      .ok
      { chars := ['1', '2', '.', '5', ';'], srcLen := 5, start := 0,
        current := 4, line := 1,
        result := [⟨TokenType.Number, ['1', '2', '.', '5'],
          LiteralType.NumberLiteral ['1', '2', '.', '5'], 1⟩],
        errors := [] } ∧
    (resTokens (scan ['1', '2', '.'])).map Token.token_type =
      [TokenType.Number, TokenType.Dot, TokenType.Eof] := by
  constructor
  · exact claim7_number_rule
      { chars := ['1', '2', '.', '5', ';'], srcLen := 5, start := 0,
        current := 1, line := 1, result := [], errors := [] }
      [] '1' ['2', '.', '5', ';'] rfl rfl rfl (by decide) (by decide) rfl
  · decide

theorem take_two_of_getElem {l : List Char} {i : Nat} {a b : Char}
    (ha : l[i]? = some a) (hb : l[i + 1]? = some b) :
    (l.drop i).take 2 = [a, b] := by
  obtain ⟨hi, hia⟩ := List.getElem?_eq_some_iff.mp ha
  obtain ⟨hj, hjb⟩ := List.getElem?_eq_some_iff.mp hb
  rw [List.drop_eq_getElem_cons hi, List.drop_eq_getElem_cons hj]
  simp [hia, hjb, List.take_succ_cons]

theorem nextIs_true (s : Scanner) (c : Char)
    (hg : s.chars[s.current]? = some c)
    (hlt : s.current < s.srcLen) :
    nextIs s c = some (true, { s with current := s.current + 1 }) := by
  unfold nextIs
  rw [if_neg (show ¬ (atEnd s = true) from by
    simp only [atEnd, decide_eq_true_eq]; omega)]
  rw [hg]
  simp

/-- C6: maximal munch for the two-character operators — whenever a scanning
step starts at one of `!`, `=`, `<`, `>` and the next character is `=`, the
step consumes both characters and emits the single combined token kind
(`BangEqual`, `EqualEqual`, `LessEqual`, `GreaterEqual` respectively), never
the two single-character tokens. -/
theorem claim6_maximal_munch (s : Scanner) (c : Char) (tt : TokenType)
    (hc : (c = '!' ∧ tt = TokenType.BangEqual) ∨
      (c = '=' ∧ tt = TokenType.EqualEqual) ∨
      (c = '<' ∧ tt = TokenType.LessEqual) ∨
      (c = '>' ∧ tt = TokenType.GreaterEqual))
    (hg : s.chars[s.current]? = some c)
    (hg2 : s.chars[s.current + 1]? = some '=')
    (hlt2 : s.current + 1 < s.srcLen)
    (hascii : ∀ x ∈ s.chars, x.utf8Size = 1) :
    scanStep s =
      .ok { s with
        start := s.current, current := s.current + 2,
        result := s.result ++ [⟨tt, [c, '='], LiteralType.Nil, s.line⟩] } := by
  have hlen2 : s.current + 1 + 1 ≤ s.chars.length := getElem?_lt hg2
  have hlex : byteSlice s.chars s.current (s.current + 1 + 1) =
      some [c, '='] := by
    rw [byteSlice_ascii hascii (by omega) hlen2]
    have h2 : s.current + 1 + 1 - s.current = 2 := by omega
    rw [h2, take_two_of_getElem hg hg2]
  have hni := nextIs_true
    { s with start := s.current, current := s.current + 1 } '=' hg2 hlt2
  rcases hc with ⟨hc, htt⟩ | ⟨hc, htt⟩ | ⟨hc, htt⟩ | ⟨hc, htt⟩ <;>
    subst hc <;> subst htt <;>
    · unfold scanStep
      simp only [advance, hg, hni, okOf, appendToken, appendTokenLiteral,
        hlex]
      simp [ScanRes.ok.injEq, Scanner.mk.injEq]

/-- Witness for claim6_maximal_munch: the input `!=` scans to exactly one
`BangEqual` token followed by the end-of-input marker. -/
theorem claim6_maximal_munch_witness :
    scanStep (Scanner.new ['!', '=']) =
      .ok
      { chars := ['!', '='], srcLen := 2, start := 0, current := 2,
        line := 1,
        result := [⟨TokenType.BangEqual, ['!', '='], LiteralType.Nil, 1⟩],
        errors := [] } ∧
    (resTokens (scan ['!', '='])).map Token.token_type =
      [TokenType.BangEqual, TokenType.Eof] := by
  constructor
  · exact claim6_maximal_munch (Scanner.new ['!', '=']) '!'
      TokenType.BangEqual (Or.inl ⟨rfl, rfl⟩) rfl rfl (by decide) (by decide)
  · decide

end RLox
